import Mathlib

/-!
Verification of the zlint core: registry, filter resolution, execution engine
and result model. Definitions are shallow embeddings of the Go source
(`lint/registration.go`-style registry code, `lint/resultset.go`); parts of the
repository not present in the provided sources (the `Lint`/`LintStatus` type
declarations) are modelled from the specification, with doc comments saying so.
-/

namespace Zlint

/-- Modelled from the spec: the status of a single lint result. The spec (§3)
presents a closed, totally ordered set of severity labels, listed in
increasing severity: Reserved, Pass, Notice (informational), Warn, Error,
Fatal, NA (not applicable). The concrete declaration (`lint/result.go`) is not
among the provided sources. -/
inductive LintStatus where
  | Reserved
  | Pass
  | Notice
  | Warn
  | Error
  | Fatal
  | NA
deriving DecidableEq, Repr

/-- Numeric severity used to order statuses, following the spec's listing
order (the spec only requires a strict total order). -/
def LintStatus.sev : LintStatus → Nat
  | .Reserved => 0
  | .Pass => 1
  | .Notice => 2
  | .Warn => 3
  | .Error => 4
  | .Fatal => 5
  | .NA => 6

instance : LT LintStatus := ⟨fun a b => a.sev < b.sev⟩

instance (a b : LintStatus) : Decidable (a < b) :=
  inferInstanceAs (Decidable (a.sev < b.sev))

/-- Modelled from the spec: a verdict is a status plus an optional
human-readable detail string (`lint/result.go` is not among the provided
sources). -/
structure LintResult where
  Status : LintStatus
  Details : String
deriving DecidableEq, Repr

/-- The result set of running lints against a certificate, embedded from
`lint/resultset.go` (schema version 4). Go's `map[string]*LintResult` is
modelled as an association list whose values are `Option LintResult`
(`none` models a nil `*LintResult`); the map itself is `Option`-wrapped so a
nil map is distinguishable from an empty one, as in Go. -/
structure ResultSet where
  Version : Int
  NoticesPresent : Bool
  WarningsPresent : Bool
  ErrorsPresent : Bool
  FatalsPresent : Bool
  Results : Option (List (String × Option LintResult))
  LintStartTimestamp : Int
  LintEndTimestamp : Int

def resultSetVersion : Int := 4

/-- Insert-or-replace for the association-list model of a Go map
(`m[k] = v`). -/
def mapInsert {β : Type} (m : List (String × β)) (k : String) (v : β) :
    List (String × β) :=
  match m with
  | [] => [(k, v)]
  | (k₀, v₀) :: rest =>
    if k₀ = k then (k, v) :: rest else (k₀, v₀) :: mapInsert rest k v

/-- Association-list lookup for the Go map read `m[k]` on a map with pointer
values: absent keys yield the zero value nil, i.e. `none`. -/
def mapLookup {β : Type} : List (String × β) → String → Option β
  | [], _ => none
  | (k₀, v) :: rest, k => if k₀ = k then some v else mapLookup rest k

/-- `newResultSet` from `lint/resultset.go`: fresh result set with the schema
version and start timestamp populated (`time.Now().Unix()` is passed in as an
explicit argument). -/
def newResultSet (startTs : Int) : ResultSet :=
  { Version := resultSetVersion
    NoticesPresent := false
    WarningsPresent := false
    ErrorsPresent := false
    FatalsPresent := false
    Results := some []
    LintStartTimestamp := startTs
    LintEndTimestamp := 0 }

/-- `ResultSet.AddResult` from `lint/resultset.go`: stores the result under
the lint name (allocating the map if nil), then raises the presence flag
matching the result's status; the flag update — and only the flag update — is
guarded by a nil check on the result. -/
def ResultSet.AddResult (rs : ResultSet) (lintName : String)
    (result : Option LintResult) : ResultSet :=
  let results := mapInsert (rs.Results.getD []) lintName result
  match result with
  | some r =>
    match r.Status with
    | .Notice => { rs with Results := some results, NoticesPresent := true }
    | .Warn => { rs with Results := some results, WarningsPresent := true }
    | .Error => { rs with Results := some results, ErrorsPresent := true }
    | .Fatal => { rs with Results := some results, FatalsPresent := true }
    | _ => { rs with Results := some results }
  | none => { rs with Results := some results }

/-- The loop body of `Above` over the entry list: each stored result is
dereferenced (`none` — a stored nil pointer — aborts the whole computation,
the embedding of the Go panic) and kept when its status is strictly above
the threshold. -/
def aboveGo (status : LintStatus) :
    List (String × Option LintResult) →
      Option (List (String × Option LintResult))
  | [] => some []
  | p :: rest => do
    let acc ← aboveGo status rest
    let res ← p.2
    pure (if status < res.Status then (p.1, some res) :: acc else acc)

/-- `ResultSet.Above` from `lint/resultset.go`: copies the entries whose
status is strictly above the threshold. Go dereferences each stored
`*LintResult` without a nil check; that dereference is modelled by the
`Option` bind, so a stored nil result makes `Above` return `none`. -/
def ResultSet.Above (rs : ResultSet) (status : LintStatus) :
    Option (List (String × Option LintResult)) :=
  aboveGo status (rs.Results.getD [])

/-- Modelled from the spec: a provenance category ("source") identifying the
origin standard of a rule — a closed enumerated set, represented abstractly by
a numeric tag (the concrete enumeration in `lint/source.go` is not among the
provided sources). -/
structure LintSource where
  tag : Nat
deriving DecidableEq, Repr

/-- `SourceList` as used by `FilterOptions`. -/
def SourceList : Type := List LintSource

/-- An opaque, already-parsed document (an X.509 certificate); the core never
inspects it, so it is represented abstractly. -/
structure Certificate where
  id : Nat

/-- Modelled from the spec: the two-operation contract a rule body implements
(applicability test and execution function) plus the one-time `Initialize`
hook whose result `register` consults; `InitializeErr = none` models a nil
error. `ExecuteFn` returns an `Option` because the Go function returns
a `*LintResult` that may be nil. -/
structure LintImpl where
  InitializeErr : Option String
  CheckApplies : Certificate → Bool
  ExecuteFn : Certificate → Option LintResult

/-- Modelled from the spec: the rule descriptor (`lint.Lint` in Go; its
declaration file is not among the provided sources). `LintPtr` is the field
called `Lint` in Go — the pointer to the rule body, nil-able, hence `Option`
(renamed because a Lean field may not shadow its own structure). -/
structure Lint where
  Name : String
  Description : String
  Citation : String
  Source : LintSource
  LintPtr : Option LintImpl

/-- Modelled from the spec: a rule's execution entry point returns a verdict
directly, encapsulating the applicability check internally (a non-applicable
rule yields a deterministic not-applicable outcome). A nil rule-body pointer
would be a nil dereference, modelled as `none`. -/
def Lint.Execute (l : Lint) (cert : Certificate) : Option LintResult :=
  match l.LintPtr with
  | none => none
  | some impl =>
    if impl.CheckApplies cert then impl.ExecuteFn cert
    else some { Status := .NA, Details := "" }

/-- The registry state from the source (`linterImpl`): the name map, the
sorted name list and the provenance index. Go maps are association lists
here; the `sync.RWMutex` is not part of the sequential state. -/
structure linterImpl where
  lintsByName : List (String × Lint)
  lintNames : List String
  lintsBySource : List (LintSource × List Lint)

/-- `newLinter` from the source: all three indices empty. -/
def newLinter : linterImpl :=
  { lintsByName := [], lintNames := [], lintsBySource := [] }

/-- The registration errors of the source: `errNilLint`, `errNilLintPtr`,
`errEmptyName`, `errDuplicateName` and `errBadInit`. -/
inductive RegisterError where
  | errNilLint
  | errNilLintPtr
  | errEmptyName
  | errDuplicateName (lintName : String)
  | errBadInit (lintName : String) (err : String)
deriving DecidableEq, Repr

/-- `linterImpl.byName`: the lint previously registered under the given name,
or `none` (Go nil) when absent. -/
def linterImpl.byName (l : linterImpl) (name : String) : Option Lint :=
  mapLookup l.lintsByName name

/-- `linterImpl.Names`: the sorted list of registered names. -/
def linterImpl.Names (l : linterImpl) : List String :=
  l.lintNames

/-- The lexicographic string order Go's `sort.Strings` and string comparison
use: byte-wise comparison of the UTF-8 encodings, which on well-formed
strings coincides with the lexicographic order on the code-point
sequences. -/
def strLe (a b : String) : Prop := a.data ≤ b.data

/-- The strict form of `strLe`. -/
def strLt (a b : String) : Prop := a.data < b.data

instance (a b : String) : Decidable (strLe a b) :=
  inferInstanceAs (Decidable (a.data ≤ b.data))

instance (a b : String) : Decidable (strLt a b) :=
  inferInstanceAs (Decidable (a.data < b.data))

/-- `sort.Strings` on the name slice. Go's sort produces the unique
`strLe`-sorted permutation of its input (duplicate strings are equal values,
so stability is unobservable); it is modelled by insertion sort, which
produces that same sorted permutation. -/
def sortStrings (xs : List String) : List String :=
  xs.insertionSort (fun a b => a.data ≤ b.data)

/-- Go `m[src] = append(m[src], l)` on the provenance index. -/
def sourceIndexAppend : List (LintSource × List Lint) → LintSource → Lint →
    List (LintSource × List Lint)
  | [], s, l => [(s, [l])]
  | (k, ls) :: rest, s, l =>
    if k = s then (k, ls ++ [l]) :: rest
    else (k, ls) :: sourceIndexAppend rest s l

/-- `linterImpl.register` from the source. The Go method mutates its receiver
and returns an error; the embedding returns the new state together with the
error, so an early (error) return leaves the state component equal to the
input. Checks, in source order: nil lint, nil `Lint` pointer, empty name,
duplicate name, then (when `initialize` is set) the `Initialize` hook; on
success it appends the name, inserts into the name map and provenance index,
and re-sorts the name list. `doInit` is the Go parameter named
`initialize` (a reserved word in Lean). -/
def linterImpl.register (linter : linterImpl) (l : Option Lint)
    (doInit : Bool) : linterImpl × Option RegisterError :=
  match l with
  | none => (linter, some .errNilLint)
  | some l =>
    match l.LintPtr with
    | none => (linter, some .errNilLintPtr)
    | some impl =>
      if l.Name = "" then (linter, some .errEmptyName)
      else if (linter.byName l.Name).isSome then
        (linter, some (.errDuplicateName l.Name))
      else if doInit ∧ impl.InitializeErr.isSome then
        (linter, some (.errBadInit l.Name (impl.InitializeErr.getD "")))
      else
        ({ lintNames := sortStrings (linter.lintNames ++ [l.Name])
           lintsByName := mapInsert linter.lintsByName l.Name l
           lintsBySource := sourceIndexAppend linter.lintsBySource l.Source l },
         none)

/-- `FilterOptions` from the source. The compiled regular expression
`NameFilter` is embedded as its matching function (`MatchString`), nil-able
hence `Option`. -/
structure FilterOptions where
  NameFilter : Option (String → Bool)
  IncludeNames : List String
  ExcludeNames : List String
  IncludeSources : List LintSource
  ExcludeSources : List LintSource

/-- `FilterOptions.Empty` from the source: no filtering element is set. -/
def FilterOptions.Empty (opts : FilterOptions) : Bool :=
  opts.NameFilter.isNone &&
    opts.IncludeNames.isEmpty &&
    opts.ExcludeNames.isEmpty &&
    opts.IncludeSources.isEmpty &&
    opts.ExcludeSources.isEmpty

/-- The errors `Filter` can surface: the two documented filter-construction
errors, a register error bubbled out of the survivor loop, and the nil
dereference the loop body would hit on a name missing from the name map
(impossible for a consistent registry). -/
inductive FilterError where
  | unknownRuleName (name : String)
  | conflictingCriteria
  | registerFailed (e : RegisterError)
  | nilLintDereference
deriving DecidableEq, Repr

/-- `strings.TrimSpace`: strips leading and trailing whitespace from a
string (on ASCII input Go's Unicode whitespace set and `Char.isWhitespace`
agree on the characters that occur). Defined on the code-point list so that
it evaluates by kernel reduction. -/
def trimSpace (s : String) : String :=
  String.mk
    (((s.data.dropWhile Char.isWhitespace).reverse.dropWhile
        Char.isWhitespace).reverse)

/-- Insertion into the Go set-map `map[string]bool` (`m[k] = true`). -/
def boolMapInsert (m : List String) (k : String) : List String :=
  if k ∈ m then m else m ++ [k]

/-- The loop of `lintNamesToMap`: trim each name, fail on the first name not
in the registry, otherwise record it in the set-map. -/
def lintNamesToMapGo (l : linterImpl) : List String → List String →
    Except FilterError (List String)
  | [], acc => .ok acc
  | n :: rest, acc =>
    let t := trimSpace n
    if (l.byName t).isSome then lintNamesToMapGo l rest (boolMapInsert acc t)
    else .error (.unknownRuleName t)

/-- `linterImpl.lintNamesToMap` from the source: an empty input list yields a
nil map (`none`); otherwise every (trimmed) name must be registered, else
`unknownRuleName`. -/
def linterImpl.lintNamesToMap (l : linterImpl) (names : List String) :
    Except FilterError (Option (List String)) :=
  if names.isEmpty then .ok none
  else (lintNamesToMapGo l names []).map some

/-- Insertion into the Go set-map `map[LintSource]bool`. -/
def sourceMapInsert (m : List LintSource) (s : LintSource) : List LintSource :=
  if s ∈ m then m else m ++ [s]

/-- `sourceListToMap` from the source: nil for an empty list, else the
set-map of its elements. -/
def sourceListToMap (sources : List LintSource) : Option (List LintSource) :=
  if sources.isEmpty then none
  else some (sources.foldl sourceMapInsert [])

/-- The nil-guarded membership read `m != nil && m[k]` on a Go set-map. -/
def inOptMap {α : Type} [DecidableEq α] (m : Option (List α)) (k : α) : Bool :=
  match m with
  | none => false
  | some ks => k ∈ ks

/-- The nil-guarded negative membership read `m != nil && !m[k]`. -/
def notInOptMap {α : Type} [DecidableEq α] (m : Option (List α)) (k : α) :
    Bool :=
  match m with
  | none => false
  | some ks => k ∉ ks

/-- `opts.NameFilter != nil && !opts.NameFilter.MatchString(name)`. -/
def nameFilterRejects (nf : Option (String → Bool)) (name : String) : Bool :=
  match nf with
  | none => false
  | some f => ! f name

/-- The survivor loop of `Filter`: for each registered name in sorted order,
apply the five keep/drop tests in source precedence and register survivors
into the accumulating fresh registry with `Initialize` skipped. -/
def filterLoop (l : linterImpl) (opts : FilterOptions)
    (sourceExcludes sourceIncludes : Option (List LintSource))
    (nameExcludes nameIncludes : Option (List String)) :
    List String → linterImpl → Except FilterError linterImpl
  | [], acc => .ok acc
  | name :: rest, acc =>
    match l.byName name with
    | none => .error .nilLintDereference
    | some lint =>
      if inOptMap sourceExcludes lint.Source then
        filterLoop l opts sourceExcludes sourceIncludes nameExcludes
          nameIncludes rest acc
      else if notInOptMap sourceIncludes lint.Source then
        filterLoop l opts sourceExcludes sourceIncludes nameExcludes
          nameIncludes rest acc
      else if nameFilterRejects opts.NameFilter name then
        filterLoop l opts sourceExcludes sourceIncludes nameExcludes
          nameIncludes rest acc
      else if inOptMap nameExcludes name then
        filterLoop l opts sourceExcludes sourceIncludes nameExcludes
          nameIncludes rest acc
      else if notInOptMap nameIncludes name then
        filterLoop l opts sourceExcludes sourceIncludes nameExcludes
          nameIncludes rest acc
      else
        match acc.register (some lint) false with
        | (acc₂, none) =>
          filterLoop l opts sourceExcludes sourceIncludes nameExcludes
            nameIncludes rest acc₂
        | (_, some e) => .error (.registerFailed e)

/-- `linterImpl.Filter` from the source. Empty criteria short-circuit to the
receiver itself. Otherwise the source and name set-maps are built (resolving
the name lists — with `unknownRuleName` on failure — happens before the
mutual-exclusion check), then `conflictingCriteria` when the name pattern is
set together with a non-empty resolved name map, then the survivor loop. -/
def linterImpl.Filter (l : linterImpl) (opts : FilterOptions) :
    Except FilterError linterImpl :=
  if opts.Empty then .ok l
  else
    let sourceExcludes := sourceListToMap opts.ExcludeSources
    let sourceIncludes := sourceListToMap opts.IncludeSources
    match l.lintNamesToMap opts.ExcludeNames with
    | .error e => .error e
    | .ok nameExcludes =>
      match l.lintNamesToMap opts.IncludeNames with
      | .error e => .error e
      | .ok nameIncludes =>
        if opts.NameFilter.isSome ∧
            ((nameExcludes.getD []).length ≠ 0 ∨
              (nameIncludes.getD []).length ≠ 0) then
          .error .conflictingCriteria
        else
          filterLoop l opts sourceExcludes sourceIncludes nameExcludes
            nameIncludes l.Names newLinter

/-- `linterImpl.Lint` from the source: fresh result set, one `AddResult` per
registered name in sorted order, then the end timestamp. The nil dereference
on a name missing from the map is modelled by `Option`. Both `time.Now`
captures are explicit arguments. -/
def linterImpl.LintCert (l : linterImpl) (cert : Certificate)
    (startTs endTs : Int) : Option ResultSet :=
  let rs := newResultSet startTs
  (l.Names.foldl
      (fun acc name => do
        let rs ← acc
        let lint ← l.byName name
        pure (rs.AddResult name (lint.Execute cert)))
      (some rs)).map
    (fun rs => { rs with LintEndTimestamp := endTs })

/-- `linterImpl.LintByName` from the source: fresh result set; when the name
resolves, a single `AddResult` with that lint's verdict; then the end
timestamp. An unregistered name adds nothing and raises no error. -/
def linterImpl.LintByName (l : linterImpl) (lintName : String)
    (cert : Certificate) (startTs endTs : Int) : ResultSet :=
  let rs := newResultSet startTs
  let rs :=
    match l.byName lintName with
    | some lint => rs.AddResult lintName (lint.Execute cert)
    | none => rs
  { rs with LintEndTimestamp := endTs }

/-! ### Specification-side predicates -/

/-- "Some entry of the map has exactly this status": the logical OR, over all
entries, of "this entry's status equals the given severity level" (a nil
entry has no status and contributes false). -/
def statusPresent (results : List (String × Option LintResult))
    (s : LintStatus) : Bool :=
  results.any (fun p =>
    match p.2 with
    | some r => r.Status = s
    | none => false)

/-- The §3 invariant on a result set: each of the four presence flags equals
the OR, over the current entries, of "status equals that severity". -/
def flagsConsistent (rs : ResultSet) : Prop :=
  rs.NoticesPresent = statusPresent (rs.Results.getD []) .Notice ∧
    rs.WarningsPresent = statusPresent (rs.Results.getD []) .Warn ∧
    rs.ErrorsPresent = statusPresent (rs.Results.getD []) .Error ∧
    rs.FatalsPresent = statusPresent (rs.Results.getD []) .Fatal

instance (rs : ResultSet) : Decidable (flagsConsistent rs) := by
  unfold flagsConsistent
  infer_instance

/-- A sequence of `AddResult` calls, folded left over the insertion order. -/
def addResults (rs : ResultSet) (steps : List (String × Option LintResult)) :
    ResultSet :=
  steps.foldl (fun rs p => rs.AddResult p.1 p.2) rs

/-- The registry consistency invariant of §3: the sorted name list is
strictly sorted and carries exactly the keys of the name map, keys are
unique, and every stored lint is keyed by its own (non-empty) name and has a
non-nil rule-body pointer. -/
def linterImpl.Valid (l : linterImpl) : Prop :=
  l.lintNames.Pairwise strLt ∧
    (∀ n ∈ l.lintNames, n ∈ l.lintsByName.map Prod.fst) ∧
    (∀ n ∈ l.lintsByName.map Prod.fst, n ∈ l.lintNames) ∧
    (l.lintsByName.map Prod.fst).Nodup ∧
    (∀ p ∈ l.lintsByName, p.2.Name = p.1 ∧ p.2.LintPtr.isSome ∧ p.1 ≠ "")

/-- A well-formed registration input: non-empty name, non-nil rule body, and
an `Initialize` hook that succeeds. -/
def validDescriptorB (l : Lint) : Bool :=
  match l.LintPtr with
  | none => false
  | some impl => l.Name ≠ "" && impl.InitializeErr.isNone

/-- Register a batch of lints one call at a time (with the `Initialize` hook
run, as `RegisterLint` does), stopping at the first error. -/
def registerAll : linterImpl → List Lint → Except RegisterError linterImpl
  | r, [] => .ok r
  | r, l :: rest =>
    match r.register (some l) true with
    | (r₂, none) => registerAll r₂ rest
    | (_, some e) => .error e

/-- The five keep/drop tests exactly as the claim words them, applied with
short-circuit precedence (a pure conjunction): membership tests on the name
lists use the lists as given. -/
def keepAsClaimed (opts : FilterOptions) (lint : Lint) (name : String) :
    Bool :=
  !(decide (lint.Source ∈ opts.ExcludeSources)) &&
    !(!opts.IncludeSources.isEmpty &&
        decide (lint.Source ∉ opts.IncludeSources)) &&
    !(nameFilterRejects opts.NameFilter name) &&
    !(decide (name ∈ opts.ExcludeNames)) &&
    !(!opts.IncludeNames.isEmpty && decide (name ∉ opts.IncludeNames))

/-- The five keep/drop tests as the code implements them: identical to
`keepAsClaimed` except that the name lists are first trimmed of surrounding
whitespace, entry-wise. -/
def keepTrimmed (opts : FilterOptions) (lint : Lint) (name : String) : Bool :=
  !(decide (lint.Source ∈ opts.ExcludeSources)) &&
    !(!opts.IncludeSources.isEmpty &&
        decide (lint.Source ∉ opts.IncludeSources)) &&
    !(nameFilterRejects opts.NameFilter name) &&
    !(decide (name ∈ opts.ExcludeNames.map trimSpace)) &&
    !(!opts.IncludeNames.isEmpty &&
        decide (name ∉ opts.IncludeNames.map trimSpace))

/-- The keep decision the survivor loop of `Filter` takes for one name,
phrased against the resolved set-maps (false when the name map misses the
name, in which case the loop would dereference nil instead). -/
def keepGo (l : linterImpl) (opts : FilterOptions)
    (sx si : Option (List LintSource)) (nx ni : Option (List String))
    (name : String) : Bool :=
  match l.byName name with
  | none => false
  | some lint =>
    !(inOptMap sx lint.Source) && !(notInOptMap si lint.Source) &&
      !(nameFilterRejects opts.NameFilter name) && !(inOptMap nx name) &&
      !(notInOptMap ni name)

/-! ### Concrete fixtures for witnesses and counterexamples -/

/-- A rule body that always applies, passes, and initializes cleanly. -/
def passImpl : LintImpl :=
  { InitializeErr := none
    CheckApplies := fun _ => true
    ExecuteFn := fun _ => some { Status := .Pass, Details := "" } }

/-- A registered descriptor named "foo" with source tag 0. -/
def fooLint : Lint :=
  { Name := "foo", Description := "", Citation := "", Source := ⟨0⟩
    LintPtr := some passImpl }

/-- A descriptor named "bar" with source tag 1. -/
def barLint : Lint :=
  { Name := "bar", Description := "", Citation := "", Source := ⟨1⟩
    LintPtr := some passImpl }

/-- The registry holding exactly `fooLint`, as `register` would build it. -/
def fooRegistry : linterImpl :=
  { lintsByName := [("foo", fooLint)]
    lintNames := ["foo"]
    lintsBySource := [(⟨0⟩, [fooLint])] }

/-- Empty filter criteria. -/
def emptyOpts : FilterOptions :=
  { NameFilter := none, IncludeNames := [], ExcludeNames := []
    IncludeSources := [], ExcludeSources := [] }

/-- The §8 example report: A at Error, B at Pass, C at Warn. -/
def exampleRS : ResultSet :=
  { newResultSet 0 with
    Results := some
      [("A", some { Status := .Error, Details := "" }),
       ("B", some { Status := .Pass, Details := "" }),
       ("C", some { Status := .Warn, Details := "" })] }

/-- A second descriptor also named "foo" (same name, different metadata). -/
def foo2Lint : Lint :=
  { Name := "foo", Description := "another", Citation := "", Source := ⟨2⟩
    LintPtr := some passImpl }

/-- The registry holding `barLint` and `fooLint` (names sorted). -/
def fooBarRegistry : linterImpl :=
  { lintsByName := [("bar", barLint), ("foo", fooLint)]
    lintNames := ["bar", "foo"]
    lintsBySource := [(⟨1⟩, [barLint]), (⟨0⟩, [fooLint])] }

/-- Criteria whose exclude-by-name list carries a name with leading
whitespace; its trimmed form is registered, the raw form is not. -/
def exOptsSpaced : FilterOptions :=
  { NameFilter := none, IncludeNames := [], ExcludeNames := [" foo"]
    IncludeSources := [], ExcludeSources := [] }

/-- Criteria keeping only rules of source tag 0. -/
def incSrcOpts : FilterOptions :=
  { NameFilter := none, IncludeNames := [], ExcludeNames := []
    IncludeSources := [⟨0⟩], ExcludeSources := [] }

/-- Criteria combining a name pattern with an include-by-name list whose
entry is not registered anywhere. -/
def conflictUnknownOpts : FilterOptions :=
  { NameFilter := some (fun _ => true), IncludeNames := ["nope"]
    ExcludeNames := [], IncludeSources := [], ExcludeSources := [] }

/-! ### The string order -/

instance : IsTotal String strLe :=
  ⟨fun a b => le_total a.data b.data⟩

instance : IsTrans String strLe :=
  ⟨fun _ _ _ h₁ h₂ => le_trans h₁ h₂⟩

instance : IsTrans String strLt :=
  ⟨fun _ _ _ h₁ h₂ => lt_trans h₁ h₂⟩

instance : IsIrrefl String strLt :=
  ⟨fun _ h => lt_irrefl _ h⟩

theorem String.data_inj {a b : String} (h : a.data = b.data) : a = b :=
  String.ext h

instance : IsAntisymm String strLe :=
  ⟨fun _ _ h₁ h₂ => String.data_inj (le_antisymm h₁ h₂)⟩

theorem strLe_of_strLt {a b : String} (h : strLt a b) : strLe a b :=
  le_of_lt h

theorem strLt_of_strLe_of_ne {a b : String} (h₁ : strLe a b) (h₂ : a ≠ b) :
    strLt a b :=
  lt_of_le_of_ne h₁ (fun hd => h₂ (String.data_inj hd))

theorem strLt_ne {a b : String} (h : strLt a b) : a ≠ b :=
  fun he => absurd (he ▸ h) (irrefl_of strLt b)

theorem sortStrings_perm (xs : List String) : (sortStrings xs).Perm xs :=
  List.perm_insertionSort strLe xs

theorem sortStrings_sorted (xs : List String) :
    (sortStrings xs).Sorted strLe :=
  List.sorted_insertionSort strLe xs

/-- A list that is already `strLe`-sorted is fixed by `sortStrings`. -/
theorem sortStrings_of_sorted {xs : List String} (h : xs.Sorted strLe) :
    sortStrings xs = xs :=
  List.eq_of_perm_of_sorted (sortStrings_perm xs) (sortStrings_sorted xs) h

/-- Two permutation-equivalent lists have the same `sortStrings` image. -/
theorem sortStrings_eq_of_perm {xs ys : List String} (h : xs.Perm ys) :
    sortStrings xs = sortStrings ys :=
  List.eq_of_perm_of_sorted
    (((sortStrings_perm xs).trans h).trans (sortStrings_perm ys).symm)
    (sortStrings_sorted xs) (sortStrings_sorted ys)

/-- Strictly sorted is the same as sorted and duplicate-free. -/
theorem pairwise_strLt_of_sorted_nodup {xs : List String}
    (hs : xs.Sorted strLe) (hn : xs.Nodup) : xs.Pairwise strLt :=
  (hs.and hn).imp (fun h => strLt_of_strLe_of_ne h.1 h.2)

theorem sorted_strLe_of_pairwise_strLt {xs : List String}
    (h : xs.Pairwise strLt) : xs.Sorted strLe :=
  h.imp strLe_of_strLt

theorem nodup_of_pairwise_strLt {xs : List String}
    (h : xs.Pairwise strLt) : xs.Nodup :=
  h.imp strLt_ne

/-! ### Association-list map lemmas -/

theorem mem_mapInsert_self {β : Type} (m : List (String × β)) (k : String)
    (v : β) : (k, v) ∈ mapInsert m k v := by
  induction m with
  | nil => simp [mapInsert]
  | cons p rest ih =>
    obtain ⟨k₀, v₀⟩ := p
    by_cases h : k₀ = k <;> simp [mapInsert, h, ih]

theorem mapInsert_of_fresh {β : Type} {m : List (String × β)} {k : String}
    (v : β) (h : k ∉ m.map Prod.fst) : mapInsert m k v = m ++ [(k, v)] := by
  induction m with
  | nil => simp [mapInsert]
  | cons p rest ih =>
    obtain ⟨k₀, v₀⟩ := p
    simp only [List.map_cons, List.mem_cons, not_or] at h
    simp [mapInsert, Ne.symm h.1, ih h.2]

theorem mapLookup_eq_none {β : Type} {m : List (String × β)} {k : String} :
    mapLookup m k = none ↔ k ∉ m.map Prod.fst := by
  induction m with
  | nil => simp [mapLookup]
  | cons p rest ih =>
    obtain ⟨k₀, v₀⟩ := p
    by_cases h : k₀ = k <;> simp [mapLookup, h, ih, Ne.symm, eq_comm]

theorem mapLookup_isSome {β : Type} {m : List (String × β)} {k : String} :
    (mapLookup m k).isSome = true ↔ k ∈ m.map Prod.fst := by
  rcases he : mapLookup m k with _ | v
  · simpa using mapLookup_eq_none.mp he
  · simp only [Option.isSome_some, true_iff]
    by_contra hmem
    rw [mapLookup_eq_none.mpr hmem] at he
    exact Option.noConfusion he

theorem mapLookup_mem {β : Type} {m : List (String × β)} {k : String}
    {v : β} (h : mapLookup m k = some v) : (k, v) ∈ m := by
  induction m with
  | nil => simp [mapLookup] at h
  | cons p rest ih =>
    obtain ⟨k₀, v₀⟩ := p
    by_cases hk : k₀ = k
    · subst hk
      simp [mapLookup] at h
      simp [h]
    · simp only [mapLookup, if_neg hk] at h
      simp [ih h]

theorem mapLookup_insert_self {β : Type} (m : List (String × β)) (k : String)
    (v : β) : mapLookup (mapInsert m k v) k = some v := by
  induction m with
  | nil => simp [mapInsert, mapLookup]
  | cons p rest ih =>
    obtain ⟨k₀, v₀⟩ := p
    by_cases h : k₀ = k <;> simp [mapInsert, mapLookup, h, ih]

theorem mapLookup_insert_ne {β : Type} (m : List (String × β))
    {k k₂ : String} (v : β) (h : k₂ ≠ k) :
    mapLookup (mapInsert m k v) k₂ = mapLookup m k₂ := by
  induction m with
  | nil => simp [mapInsert, mapLookup, Ne.symm h]
  | cons p rest ih =>
    obtain ⟨k₀, v₀⟩ := p
    by_cases hk : k₀ = k
    · subst hk
      simp [mapInsert, mapLookup, Ne.symm h]
    · by_cases hk₂ : k₀ = k₂ <;>
        simp [mapInsert, mapLookup, hk, hk₂, h, ih]

theorem mapInsert_keys_fresh {β : Type} {m : List (String × β)} {k : String}
    (v : β) (h : k ∉ m.map Prod.fst) :
    (mapInsert m k v).map Prod.fst = m.map Prod.fst ++ [k] := by
  rw [mapInsert_of_fresh v h]
  simp

/-! ### `Above` lemmas -/

theorem aboveGo_isSome {t : LintStatus}
    {results : List (String × Option LintResult)}
    (h : ∀ p ∈ results, p.2.isSome) : (aboveGo t results).isSome := by
  induction results with
  | nil => simp [aboveGo]
  | cons p rest ih =>
    have hp : p.2.isSome := h p (by simp)
    have hrest := ih (fun q hq => h q (by simp [hq]))
    rcases hacc : aboveGo t rest with _ | acc
    · rw [hacc] at hrest; simp at hrest
    · rcases hres : p.2 with _ | res
      · rw [hres] at hp; simp at hp
      · simp [aboveGo, hacc, hres]

theorem aboveGo_eq_none {t : LintStatus}
    {results : List (String × Option LintResult)}
    {p : String × Option LintResult} (hp : p ∈ results) (hn : p.2 = none) :
    aboveGo t results = none := by
  induction results with
  | nil => simp at hp
  | cons q rest ih =>
    rcases List.mem_cons.mp hp with he | hm
    · subst he
      rcases hacc : aboveGo t rest with _ | acc <;> simp [aboveGo, hacc, hn]
    · simp [aboveGo, ih hm]

theorem aboveGo_mem {t : LintStatus}
    {results m : List (String × Option LintResult)}
    (h : aboveGo t results = some m) (n : String) (r : LintResult) :
    (n, some r) ∈ m ↔ ((n, some r) ∈ results ∧ t < r.Status) := by
  induction results generalizing m with
  | nil =>
    simp only [aboveGo, Option.some.injEq] at h
    simp [← h]
  | cons p rest ih =>
    obtain ⟨pn, pres⟩ := p
    rcases hacc : aboveGo t rest with _ | acc
    · simp [aboveGo, hacc] at h
    · rcases pres with _ | res
      · simp [aboveGo, hacc] at h
      · simp only [aboveGo, hacc, Option.bind_eq_bind, Option.some_bind,
          Option.pure_def, Option.some.injEq] at h
        by_cases hlt : t < res.Status
        · rw [if_pos hlt] at h
          subst h
          simp only [List.mem_cons, Prod.mk.injEq, Option.some.injEq]
          constructor
          · rintro (⟨hn₁, hr₁⟩ | hmem)
            · subst hn₁; subst hr₁; exact ⟨Or.inl ⟨rfl, rfl⟩, hlt⟩
            · have := (ih hacc).mp hmem
              simp only [List.mem_cons] at this ⊢
              exact ⟨Or.inr this.1, this.2⟩
          · rintro ⟨⟨hn₁, hr₁⟩ | hmem, hlt₂⟩
            · exact Or.inl ⟨hn₁, hr₁⟩
            · exact Or.inr ((ih hacc).mpr ⟨hmem, hlt₂⟩)
        · rw [if_neg hlt] at h
          subst h
          rw [ih hacc]
          simp only [List.mem_cons, Prod.mk.injEq, Option.some.injEq]
          constructor
          · rintro ⟨hm, hlt₂⟩
            exact ⟨Or.inr hm, hlt₂⟩
          · rintro ⟨⟨hn₁, hr₁⟩ | hmem, hlt₂⟩
            · subst hr₁; exact absurd hlt₂ hlt
            · exact ⟨hmem, hlt₂⟩

theorem aboveGo_entries {t : LintStatus}
    {results m : List (String × Option LintResult)}
    (h : aboveGo t results = some m) :
    ∀ p ∈ m, ∃ r, p.2 = some r ∧ t < r.Status := by
  induction results generalizing m with
  | nil =>
    simp only [aboveGo, Option.some.injEq] at h
    subst h; simp
  | cons p rest ih =>
    obtain ⟨pn, pres⟩ := p
    rcases hacc : aboveGo t rest with _ | acc
    · simp [aboveGo, hacc] at h
    · rcases pres with _ | res
      · simp [aboveGo, hacc] at h
      · simp only [aboveGo, hacc, Option.bind_eq_bind, Option.some_bind,
          Option.pure_def, Option.some.injEq] at h
        by_cases hlt : t < res.Status
        · rw [if_pos hlt] at h
          subst h
          intro q hq
          rcases List.mem_cons.mp hq with he | hm
          · exact ⟨res, by rw [he], hlt⟩
          · exact ih hacc q hm
        · rw [if_neg hlt] at h
          subst h
          exact ih hacc

theorem aboveGo_fixed {t : LintStatus}
    {m : List (String × Option LintResult)}
    (h : ∀ p ∈ m, ∃ r, p.2 = some r ∧ t < r.Status) :
    aboveGo t m = some m := by
  induction m with
  | nil => simp [aboveGo]
  | cons p rest ih =>
    obtain ⟨r, hr, hlt⟩ := h p (by simp)
    have hrest := ih (fun q hq => h q (by simp [hq]))
    have hp : p = (p.1, some r) := Prod.ext rfl hr
    simp [aboveGo, hrest, hr, hlt, ← hp]

/-! ### `AddResult` lemmas -/

/-- Whatever the (possibly nil) result and its status, `AddResult` stores the
entry; only the flag fields differ between the branches. -/
theorem addResult_results (rs : ResultSet) (name : String)
    (res : Option LintResult) :
    (rs.AddResult name res).Results =
      some (mapInsert (rs.Results.getD []) name res) := by
  rcases res with _ | r
  · rfl
  · rcases r with ⟨s, d⟩
    cases s <;> rfl

theorem addResult_timestamps (rs : ResultSet) (name : String)
    (res : Option LintResult) :
    (rs.AddResult name res).LintStartTimestamp = rs.LintStartTimestamp ∧
      (rs.AddResult name res).Version = rs.Version := by
  rcases res with _ | r
  · exact ⟨rfl, rfl⟩
  · rcases r with ⟨s, d⟩
    cases s <;> exact ⟨rfl, rfl⟩

theorem statusPresent_append (m₁ m₂ : List (String × Option LintResult))
    (s : LintStatus) :
    statusPresent (m₁ ++ m₂) s = (statusPresent m₁ s || statusPresent m₂ s) := by
  simp [statusPresent, List.any_append]

/-- One fresh-keyed insertion preserves the presence-flag invariant. -/
theorem addResult_step (rs : ResultSet) (name : String)
    (res : Option LintResult) (h : flagsConsistent rs)
    (hfresh : name ∉ (rs.Results.getD []).map Prod.fst) :
    flagsConsistent (rs.AddResult name res) := by
  obtain ⟨h₁, h₂, h₃, h₄⟩ := h
  have hins :
      mapInsert (rs.Results.getD []) name res = rs.Results.getD [] ++ [(name, res)] :=
    mapInsert_of_fresh res hfresh
  rcases res with _ | r
  · refine ⟨?_, ?_, ?_, ?_⟩ <;>
      simp [ResultSet.AddResult, hins, statusPresent_append, statusPresent,
        h₁, h₂, h₃, h₄]
  · rcases r with ⟨s, d⟩
    cases s <;>
      refine ⟨?_, ?_, ?_, ?_⟩ <;>
        simp [ResultSet.AddResult, hins, statusPresent_append, statusPresent,
          h₁, h₂, h₃, h₄]

/-- Folding fresh, pairwise-distinct insertions preserves the invariant. -/
theorem addResults_flags (rs : ResultSet)
    (steps : List (String × Option LintResult)) (h : flagsConsistent rs)
    (hfresh : ∀ k ∈ steps.map Prod.fst, k ∉ (rs.Results.getD []).map Prod.fst)
    (hnodup : (steps.map Prod.fst).Nodup) :
    flagsConsistent (addResults rs steps) := by
  induction steps generalizing rs with
  | nil => exact h
  | cons p rest ih =>
    obtain ⟨name, res⟩ := p
    have hf : name ∉ (rs.Results.getD []).map Prod.fst :=
      hfresh name (by simp)
    have hstep := addResult_step rs name res h hf
    have hkeys :
        ((rs.AddResult name res).Results.getD []).map Prod.fst =
          (rs.Results.getD []).map Prod.fst ++ [name] := by
      rw [addResult_results, Option.getD_some, mapInsert_of_fresh res hf]
      simp
    simp only [List.map_cons, List.nodup_cons] at hnodup
    refine ih (rs.AddResult name res) hstep ?_ hnodup.2
    intro k hk
    rw [hkeys]
    simp only [List.mem_append, List.mem_singleton, not_or]
    refine ⟨hfresh k (by simp [hk]), ?_⟩
    intro he
    exact hnodup.1 (he ▸ hk)

/-! ### Registry lemmas -/

theorem validDescriptorB_parts {l : Lint} (h : validDescriptorB l = true) :
    l.Name ≠ "" ∧ ∃ impl, l.LintPtr = some impl ∧ impl.InitializeErr = none := by
  unfold validDescriptorB at h
  rcases hp : l.LintPtr with _ | impl
  · rw [hp] at h
    simp at h
  · rw [hp] at h
    simp only [Bool.and_eq_true, decide_eq_true_eq] at h
    exact ⟨h.1, impl, rfl, Option.isNone_iff_eq_none.mp h.2⟩

theorem newLinter_valid : newLinter.Valid := by
  refine ⟨?_, ?_, ?_, ?_, ?_⟩ <;> simp [newLinter]

/-- A successful `register` call: the exact conditions under which it
succeeds, and a description of the resulting state sufficient for all
registry claims. -/
theorem register_ok_spec (linter : linterImpl) (l : Lint) (impl : LintImpl)
    (doInit : Bool) (hV : linter.Valid) (hptr : l.LintPtr = some impl)
    (hname : l.Name ≠ "") (hdup : linter.byName l.Name = none)
    (hinit : doInit = true → impl.InitializeErr = none) :
    ∃ r, linter.register (some l) doInit = (r, none) ∧ r.Valid ∧
      r.lintNames.Perm (l.Name :: linter.lintNames) ∧
      (∀ n, r.byName n = if n = l.Name then some l else linter.byName n) := by
  obtain ⟨hPW, hsub₁, hsub₂, hkeys, hstored⟩ := hV
  have hkeyfresh : l.Name ∉ linter.lintsByName.map Prod.fst :=
    mapLookup_eq_none.mp hdup
  have hnamefresh : l.Name ∉ linter.lintNames := fun hmem =>
    hkeyfresh (hsub₁ l.Name hmem)
  have hinit₂ : ¬(doInit = true ∧ impl.InitializeErr.isSome = true) := by
    rintro ⟨hd, hi⟩
    rw [hinit hd] at hi
    simp at hi
  have hreg : linter.register (some l) doInit =
      ({ lintNames := sortStrings (linter.lintNames ++ [l.Name])
         lintsByName := mapInsert linter.lintsByName l.Name l
         lintsBySource := sourceIndexAppend linter.lintsBySource l.Source l },
        none) := by
    simp [linterImpl.register, hptr, hname, hdup, hinit₂]
  refine ⟨_, hreg, ?_, ?_, ?_⟩
  · -- validity of the new state
    have hperm : (sortStrings (linter.lintNames ++ [l.Name])).Perm
        (l.Name :: linter.lintNames) :=
      (sortStrings_perm _).trans (List.perm_append_singleton l.Name _)
    have hnodup : (sortStrings (linter.lintNames ++ [l.Name])).Nodup :=
      hperm.nodup_iff.mpr
        (List.nodup_cons.mpr ⟨hnamefresh, nodup_of_pairwise_strLt hPW⟩)
    have hkeysnew : (mapInsert linter.lintsByName l.Name l).map Prod.fst =
        linter.lintsByName.map Prod.fst ++ [l.Name] :=
      mapInsert_keys_fresh l hkeyfresh
    refine ⟨pairwise_strLt_of_sorted_nodup (sortStrings_sorted _) hnodup,
      ?_, ?_, ?_, ?_⟩
    · intro n hn
      rw [hkeysnew]
      rcases List.mem_cons.mp (hperm.mem_iff.mp hn) with he | hm
      · simp [he]
      · simp [hsub₁ n hm]
    · intro n hn
      rw [hkeysnew] at hn
      rcases List.mem_append.mp hn with hm | he
      · exact hperm.mem_iff.mpr (List.mem_cons.mpr (Or.inr (hsub₂ n hm)))
      · simp only [List.mem_singleton] at he
        exact hperm.mem_iff.mpr (List.mem_cons.mpr (Or.inl he))
    · rw [hkeysnew]
      simp only [List.nodup_append, List.nodup_singleton, true_and]
      exact ⟨hkeys, by simpa using fun hmem => hkeyfresh hmem⟩
    · intro p hp
      rw [mapInsert_of_fresh l hkeyfresh] at hp
      rcases List.mem_append.mp hp with hm | he
      · exact hstored p hm
      · simp only [List.mem_singleton] at he
        subst he
        exact ⟨rfl, by simp [hptr], hname⟩
  · exact (sortStrings_perm _).trans (List.perm_append_singleton l.Name _)
  · intro n
    by_cases he : n = l.Name
    · subst he
      simp [linterImpl.byName, mapLookup_insert_self]
    · simp [linterImpl.byName, mapLookup_insert_ne _ l he, if_neg he]

/-- The exact pair a successful `register` call returns (no validity
assumption needed). -/
theorem register_ok_eq (linter : linterImpl) (l : Lint) (impl : LintImpl)
    (doInit : Bool) (hptr : l.LintPtr = some impl) (hname : l.Name ≠ "")
    (hdup : linter.byName l.Name = none)
    (hinit : doInit = true → impl.InitializeErr = none) :
    linter.register (some l) doInit =
      ({ lintNames := sortStrings (linter.lintNames ++ [l.Name])
         lintsByName := mapInsert linter.lintsByName l.Name l
         lintsBySource := sourceIndexAppend linter.lintsBySource l.Source l },
        none) := by
  have hinit₂ : ¬(doInit = true ∧ impl.InitializeErr.isSome = true) := by
    rintro ⟨hd, hi⟩
    rw [hinit hd] at hi
    simp at hi
  simp [linterImpl.register, hptr, hname, hdup, hinit₂]

/-- Every register call that reports an error leaves the state component
exactly equal to the input registry. -/
theorem register_fail_unchanged (r : linterImpl) (lo : Option Lint)
    (b : Bool) (h : ((r.register lo b).2).isSome = true) :
    (r.register lo b).1 = r := by
  rcases lo with _ | l
  · rfl
  · rcases hp : l.LintPtr with _ | impl
    · simp [linterImpl.register, hp]
    · by_cases h₁ : l.Name = ""
      · simp [linterImpl.register, hp, h₁]
      · by_cases h₂ : (r.byName l.Name).isSome = true
        · simp [linterImpl.register, hp, h₁, h₂]
        · by_cases h₃ : b = true ∧ impl.InitializeErr.isSome = true
          · simp [linterImpl.register, hp, h₁, h₂, h₃]
          · exfalso
            simp [linterImpl.register, hp, h₁, h₂, h₃] at h

/-- Batch registration into a valid registry with fresh, distinct, valid
descriptors succeeds and accumulates exactly the new names. -/
theorem registerAll_ok (ls : List Lint) : ∀ (r : linterImpl), r.Valid →
    (∀ l ∈ ls, validDescriptorB l = true) → (ls.map Lint.Name).Nodup →
    (∀ l ∈ ls, l.Name ∉ r.lintNames) →
    ∃ r₂, registerAll r ls = .ok r₂ ∧ r₂.Valid ∧
      r₂.lintNames.Perm (ls.map Lint.Name ++ r.lintNames) := by
  induction ls with
  | nil =>
    intro r hV _ _ _
    exact ⟨r, rfl, hV, by simp⟩
  | cons l rest ih =>
    intro r hV hvalid hnodup hfresh
    obtain ⟨hname, impl, hptr, hinit⟩ :=
      validDescriptorB_parts (hvalid l (by simp))
    have hdup : r.byName l.Name = none :=
      mapLookup_eq_none.mpr
        (fun hk => hfresh l (by simp) (hV.2.2.1 _ hk))
    obtain ⟨r₁, hreg, hV₁, hperm, hby⟩ :=
      register_ok_spec r l impl true hV hptr hname hdup (fun _ => hinit)
    simp only [List.map_cons, List.nodup_cons] at hnodup
    have hfresh₁ : ∀ x ∈ rest, x.Name ∉ r₁.lintNames := by
      intro x hx hmem
      rcases List.mem_cons.mp (hperm.mem_iff.mp hmem) with he | hm
      · exact hnodup.1 (he ▸ List.mem_map_of_mem Lint.Name hx)
      · exact hfresh x (by simp [hx]) hm
    obtain ⟨r₂, hrec, hV₂, hperm₂⟩ :=
      ih r₁ hV₁ (fun x hx => hvalid x (by simp [hx])) hnodup.2 hfresh₁
    refine ⟨r₂, ?_, hV₂, ?_⟩
    · simp [registerAll, hreg, hrec]
    · refine hperm₂.trans (((hperm.append_left (rest.map Lint.Name)).trans ?_))
      simp only [List.map_cons, List.cons_append]
      exact List.perm_middle

/-! ### Claims about registration -/

/-- C5: with a valid first descriptor and a fresh name, the first `register`
succeeds; a second `register` of any descriptor with the same name (and a
non-nil rule-body pointer, so that the earlier checks pass) fails with
`DuplicateName` and returns the registry exactly as the first registration
left it — and, in general, every failing register call (nil lint, nil
pointer, empty name, duplicate, initializer error) leaves the registry
unchanged. -/
theorem register_duplicate_and_fail_unchanged :
    (∀ (r : linterImpl) (l₁ l₂ : Lint) (b : Bool),
      r.byName l₁.Name = none → validDescriptorB l₁ = true →
      l₂.Name = l₁.Name → l₂.LintPtr.isSome = true →
      ∃ r₁, r.register (some l₁) true = (r₁, none) ∧
        r₁.register (some l₂) b =
          (r₁, some (RegisterError.errDuplicateName l₂.Name))) ∧
    (∀ (r : linterImpl) (lo : Option Lint) (b : Bool),
      ((r.register lo b).2).isSome = true → (r.register lo b).1 = r) := by
  constructor
  · intro r l₁ l₂ b hby hv hn₂ hp₂
    obtain ⟨hname₁, impl₁, hp₁, hi₁⟩ := validDescriptorB_parts hv
    have hreg := register_ok_eq r l₁ impl₁ true hp₁ hname₁ hby (fun _ => hi₁)
    refine ⟨_, hreg, ?_⟩
    obtain ⟨impl₂, hp₂e⟩ := Option.isSome_iff_exists.mp hp₂
    have hname₂ : l₂.Name ≠ "" := by rw [hn₂]; exact hname₁
    have hby₂ : ((mapLookup (mapInsert r.lintsByName l₁.Name l₁)
        l₂.Name).isSome) = true := by
      rw [hn₂, mapLookup_insert_self]
      rfl
    simp [linterImpl.register, linterImpl.byName, hp₂e, hname₂, hby₂]
  · exact register_fail_unchanged

/-- C5 witness: registering `fooLint` then `foo2Lint` (both named "foo")
into a fresh registry; and a failing call (nil lint) leaving the registry
unchanged. -/
theorem register_duplicate_and_fail_unchanged_witness :
    (∃ r₁, newLinter.register (some fooLint) true = (r₁, none) ∧
      r₁.register (some foo2Lint) true =
        (r₁, some (RegisterError.errDuplicateName "foo"))) ∧
    (newLinter.register none true).1 = newLinter :=
  ⟨register_duplicate_and_fail_unchanged.1 newLinter fooLint foo2Lint true
      rfl (by decide) rfl rfl,
    register_duplicate_and_fail_unchanged.2 newLinter none true rfl⟩

/-- C4: registering any finite list of valid descriptors with pairwise
distinct (non-empty) names into a fresh registry succeeds, `names()` is the
`strLe`-sorted list of exactly those names, and any permutation of the
registration order succeeds with the identical `names()`. -/
theorem registerAll_names_sorted (ls : List Lint)
    (hvalid : ∀ l ∈ ls, validDescriptorB l = true)
    (hnodup : (ls.map Lint.Name).Nodup) :
    ∃ r, registerAll newLinter ls = .ok r ∧
      r.Names = sortStrings (ls.map Lint.Name) ∧
      ∀ ls₂, ls₂.Perm ls → ∃ r₂, registerAll newLinter ls₂ = .ok r₂ ∧
        r₂.Names = r.Names := by
  have main : ∀ (ms : List Lint), (∀ l ∈ ms, validDescriptorB l = true) →
      (ms.map Lint.Name).Nodup →
      ∃ r, registerAll newLinter ms = .ok r ∧
        r.Names = sortStrings (ms.map Lint.Name) := by
    intro ms hv hn
    obtain ⟨r, hok, hV, hperm⟩ :=
      registerAll_ok ms newLinter newLinter_valid hv hn (by simp [newLinter])
    refine ⟨r, hok, ?_⟩
    have hsorted : r.lintNames.Sorted strLe :=
      sorted_strLe_of_pairwise_strLt hV.1
    have hperm₂ : r.lintNames.Perm (ms.map Lint.Name) := by
      simpa [newLinter] using hperm
    exact List.eq_of_perm_of_sorted (hperm₂.trans (sortStrings_perm _).symm)
      hsorted (sortStrings_sorted _)
  obtain ⟨r, hok, hnames⟩ := main ls hvalid hnodup
  refine ⟨r, hok, hnames, ?_⟩
  intro ls₂ hp
  obtain ⟨r₂, hok₂, hnames₂⟩ := main ls₂ (fun x hx => hvalid x (hp.subset hx))
    ((hp.map Lint.Name).nodup_iff.mpr hnodup)
  exact ⟨r₂, hok₂, by
    rw [hnames₂, hnames, sortStrings_eq_of_perm (hp.map Lint.Name)]⟩

/-- C4 witness: registering `fooLint` then `barLint` yields sorted names
(and every permutation agrees). -/
theorem registerAll_names_sorted_witness :
    ∃ r, registerAll newLinter [fooLint, barLint] = .ok r ∧
      r.Names = sortStrings ([fooLint, barLint].map Lint.Name) ∧
      ∀ ls₂, ls₂.Perm [fooLint, barLint] →
        ∃ r₂, registerAll newLinter ls₂ = .ok r₂ ∧ r₂.Names = r.Names :=
  registerAll_names_sorted [fooLint, barLint] (by decide) (by decide)

/-! ### Filter resolution lemmas -/

theorem mem_boolMapInsert {acc : List String} {t x : String} :
    x ∈ boolMapInsert acc t ↔ x ∈ acc ∨ x = t := by
  unfold boolMapInsert
  by_cases h : t ∈ acc
  · rw [if_pos h]
    constructor
    · exact fun hx => Or.inl hx
    · rintro (hx | hx)
      · exact hx
      · exact hx ▸ h
  · rw [if_neg h]
    simp

theorem lintNamesToMapGo_ok {l : linterImpl} {names acc mm : List String}
    (h : lintNamesToMapGo l names acc = .ok mm) :
    (∀ n ∈ names, (l.byName (trimSpace n)).isSome = true) ∧
      (∀ x, x ∈ mm ↔ (x ∈ acc ∨ x ∈ names.map trimSpace)) := by
  induction names generalizing acc with
  | nil =>
    simp only [lintNamesToMapGo, Except.ok.injEq] at h
    subst h
    simp
  | cons n rest ih =>
    simp only [lintNamesToMapGo] at h
    by_cases hs : (l.byName (trimSpace n)).isSome = true
    · rw [if_pos hs] at h
      obtain ⟨hrest, hmem⟩ := ih h
      refine ⟨?_, ?_⟩
      · intro x hx
        rcases List.mem_cons.mp hx with he | hm
        · exact he ▸ hs
        · exact hrest x hm
      · intro x
        rw [hmem x, mem_boolMapInsert]
        simp only [List.map_cons, List.mem_cons]
        constructor
        · rintro ((hx | hx) | hx)
          · exact Or.inl hx
          · exact Or.inr (Or.inl hx)
          · exact Or.inr (Or.inr hx)
        · rintro (hx | hx | hx)
          · exact Or.inl (Or.inl hx)
          · exact Or.inl (Or.inr hx)
          · exact Or.inr hx
    · rw [if_neg hs] at h
      exact absurd h (by simp)

theorem lintNamesToMapGo_total {l : linterImpl} (names : List String)
    (h : ∀ n ∈ names, (l.byName (trimSpace n)).isSome = true) :
    ∀ acc, ∃ mm, lintNamesToMapGo l names acc = .ok mm := by
  induction names with
  | nil => exact fun acc => ⟨acc, rfl⟩
  | cons n rest ih =>
    intro acc
    have hs := h n (by simp)
    simp only [lintNamesToMapGo, if_pos hs]
    exact ih (fun x hx => h x (by simp [hx])) _

theorem lintNamesToMapGo_err {l : linterImpl} (names : List String)
    (h : ∃ n ∈ names, l.byName (trimSpace n) = none) :
    ∀ acc, ∃ t, lintNamesToMapGo l names acc =
      .error (.unknownRuleName t) ∧ l.byName t = none := by
  induction names with
  | nil => simp at h
  | cons n rest ih =>
    intro acc
    by_cases hs : (l.byName (trimSpace n)).isSome = true
    · simp only [lintNamesToMapGo, if_pos hs]
      refine ih ?_ _
      obtain ⟨n₀, hmem, hnone⟩ := h
      rcases List.mem_cons.mp hmem with he | hm
      · rw [he] at hnone
        rw [hnone] at hs
        exact absurd hs (by simp)
      · exact ⟨n₀, hm, hnone⟩
    · have hnone : l.byName (trimSpace n) = none := by
        rcases h₂ : l.byName (trimSpace n) with _ | v
        · rfl
        · rw [h₂] at hs
          exact absurd rfl hs
      simp only [lintNamesToMapGo, if_neg hs]
      exact ⟨trimSpace n, rfl, hnone⟩

theorem lintNamesToMap_ok {l : linterImpl} {names : List String}
    {m : Option (List String)} (h : l.lintNamesToMap names = .ok m) :
    (m = none ↔ names = []) ∧
      (∀ x, x ∈ m.getD [] ↔ x ∈ names.map trimSpace) ∧
      (∀ n ∈ names, (l.byName (trimSpace n)).isSome = true) := by
  unfold linterImpl.lintNamesToMap at h
  by_cases he : names.isEmpty
  · rw [if_pos he] at h
    have hnil : names = [] := List.isEmpty_iff.mp he
    simp only [Except.ok.injEq] at h
    subst h
    simp [hnil]
  · rw [if_neg he] at h
    rcases hg : lintNamesToMapGo l names [] with e | mm
    · rw [hg] at h
      exact absurd h (by simp [Except.map])
    · rw [hg] at h
      simp only [Except.map, Except.ok.injEq] at h
      subst h
      obtain ⟨hres, hmem⟩ := lintNamesToMapGo_ok hg
      refine ⟨?_, ?_, hres⟩
      · simp only [Option.some_ne_none, false_iff]
        exact fun hnil => he (by simp [hnil])
      · intro x
        rw [Option.getD_some]
        simpa using hmem x

theorem lintNamesToMap_total {l : linterImpl} (names : List String)
    (h : ∀ n ∈ names, (l.byName (trimSpace n)).isSome = true) :
    ∃ m, l.lintNamesToMap names = .ok m := by
  unfold linterImpl.lintNamesToMap
  by_cases he : names.isEmpty
  · rw [if_pos he]
    exact ⟨none, rfl⟩
  · rw [if_neg he]
    obtain ⟨mm, hmm⟩ := lintNamesToMapGo_total names h []
    exact ⟨some mm, by rw [hmm]; rfl⟩

theorem lintNamesToMap_err {l : linterImpl} (names : List String)
    (h : ∃ n ∈ names, l.byName (trimSpace n) = none) :
    ∃ t, l.lintNamesToMap names = .error (.unknownRuleName t) ∧
      l.byName t = none := by
  unfold linterImpl.lintNamesToMap
  have hne : ¬names.isEmpty = true := by
    obtain ⟨n₀, hmem, _⟩ := h
    simp [List.isEmpty_iff, List.ne_nil_of_mem hmem]
  rw [if_neg hne]
  obtain ⟨t, ht, htn⟩ := lintNamesToMapGo_err names h []
  exact ⟨t, by rw [ht]; rfl, htn⟩

theorem mem_sourceMapInsert {m : List LintSource} {s x : LintSource} :
    x ∈ sourceMapInsert m s ↔ x ∈ m ∨ x = s := by
  unfold sourceMapInsert
  by_cases h : s ∈ m
  · rw [if_pos h]
    constructor
    · exact fun hx => Or.inl hx
    · rintro (hx | hx)
      · exact hx
      · exact hx ▸ h
  · rw [if_neg h]
    simp

theorem mem_foldl_sourceMapInsert (xs : List LintSource) :
    ∀ (acc : List LintSource) (x : LintSource),
      (x ∈ xs.foldl sourceMapInsert acc ↔ x ∈ acc ∨ x ∈ xs) := by
  induction xs with
  | nil => simp
  | cons s rest ih =>
    intro acc x
    simp only [List.foldl_cons]
    rw [ih (sourceMapInsert acc s) x, mem_sourceMapInsert]
    simp only [List.mem_cons]
    constructor
    · rintro ((hx | hx) | hx)
      · exact Or.inl hx
      · exact Or.inr (Or.inl hx)
      · exact Or.inr (Or.inr hx)
    · rintro (hx | hx | hx)
      · exact Or.inl (Or.inl hx)
      · exact Or.inl (Or.inr hx)
      · exact Or.inr hx

theorem inOptMap_sourceListToMap (xs : List LintSource) (s : LintSource) :
    inOptMap (sourceListToMap xs) s = decide (s ∈ xs) := by
  unfold sourceListToMap
  by_cases he : xs.isEmpty
  · rw [if_pos he]
    have : xs = [] := List.isEmpty_iff.mp he
    simp [inOptMap, this]
  · rw [if_neg he]
    simp only [inOptMap]
    exact decide_eq_decide.mpr (by simpa using mem_foldl_sourceMapInsert xs [] s)

theorem notInOptMap_sourceListToMap (xs : List LintSource) (s : LintSource) :
    notInOptMap (sourceListToMap xs) s =
      (!xs.isEmpty && decide (s ∉ xs)) := by
  unfold sourceListToMap
  by_cases he : xs.isEmpty
  · rw [if_pos he]
    simp [notInOptMap, he]
  · rw [if_neg he]
    simp only [notInOptMap, Bool.not_eq_true', he]
    rw [Bool.not_false, Bool.true_and]
    exact decide_eq_decide.mpr
      (by simpa using not_congr (mem_foldl_sourceMapInsert xs [] s))

/-- Against the resolved set-maps, the loop's keep decision for a registered
name agrees with the claim's five tests applied to the trimmed name lists. -/
theorem keepGo_eq_keepTrimmed {l : linterImpl} {opts : FilterOptions}
    {nx ni : Option (List String)}
    (hx : l.lintNamesToMap opts.ExcludeNames = .ok nx)
    (hi : l.lintNamesToMap opts.IncludeNames = .ok ni)
    {name : String} {lint : Lint} (hlint : l.byName name = some lint) :
    keepGo l opts (sourceListToMap opts.ExcludeSources)
      (sourceListToMap opts.IncludeSources) nx ni name =
      keepTrimmed opts lint name := by
  obtain ⟨hxe, hxm, _⟩ := lintNamesToMap_ok hx
  obtain ⟨hie, him, _⟩ := lintNamesToMap_ok hi
  have e₄ : inOptMap nx name =
      decide (name ∈ opts.ExcludeNames.map trimSpace) := by
    rcases nx with _ | ks
    · have : opts.ExcludeNames = [] := hxe.mp rfl
      simp [inOptMap, this]
    · simp only [inOptMap]
      exact decide_eq_decide.mpr (by simpa using hxm name)
  have e₅ : notInOptMap ni name =
      (!opts.IncludeNames.isEmpty &&
        decide (name ∉ opts.IncludeNames.map trimSpace)) := by
    rcases ni with _ | ks
    · have : opts.IncludeNames = [] := hie.mp rfl
      simp [notInOptMap, this]
    · have hne : opts.IncludeNames ≠ [] := by
        intro hh
        exact absurd (hie.mpr hh) (by simp)
      have hbe : opts.IncludeNames.isEmpty = false := by
        simpa using hne
      simp only [notInOptMap, hbe]
      rw [Bool.not_false, Bool.true_and]
      exact decide_eq_decide.mpr (by simpa using not_congr (him name))
  simp only [keepGo, hlint, keepTrimmed, inOptMap_sourceListToMap,
    notInOptMap_sourceListToMap, e₄, e₅]

/-- The survivor loop of `Filter`, started on a strictly sorted name list
whose names all resolve in the source registry and sit above the
accumulator's names: it succeeds, appends exactly the kept names in order,
and preserves registry validity. -/
theorem filterLoop_ok (l : linterImpl) (opts : FilterOptions)
    (sx si : Option (List LintSource)) (nx ni : Option (List String)) :
    ∀ (names : List String) (acc : linterImpl),
    (∀ n ∈ names, ∃ lint, l.byName n = some lint ∧ lint.Name = n ∧
        lint.LintPtr.isSome = true ∧ n ≠ "") →
    names.Pairwise strLt →
    acc.Valid →
    (∀ a ∈ acc.lintNames, ∀ b ∈ names, strLt a b) →
    ∃ res, filterLoop l opts sx si nx ni names acc = .ok res ∧
      res.lintNames =
        acc.lintNames ++ names.filter (keepGo l opts sx si nx ni) ∧
      res.Valid := by
  intro names
  induction names with
  | nil =>
    intro acc _ _ hV _
    exact ⟨acc, rfl, by simp, hV⟩
  | cons name rest ih =>
    intro acc hlk hpw hV hord
    obtain ⟨lint, hlint, hlname, hlptr, hlne⟩ := hlk name (by simp)
    have hrec := ih acc (fun n hn => hlk n (by simp [hn])) hpw.of_cons hV
      (fun a ha b hb => hord a ha b (by simp [hb]))
    by_cases c₁ : inOptMap sx lint.Source = true
    · obtain ⟨res, hres, hnames, hV₂⟩ := hrec
      refine ⟨res, ?_, ?_, hV₂⟩
      · simp only [filterLoop, hlint, if_pos c₁]
        exact hres
      · rw [hnames]
        have hk : keepGo l opts sx si nx ni name = false := by
          simp [keepGo, hlint, c₁]
        rw [List.filter_cons, hk]
        simp
    · have c₁f := Bool.eq_false_iff.mpr c₁
      by_cases c₂ : notInOptMap si lint.Source = true
      · obtain ⟨res, hres, hnames, hV₂⟩ := hrec
        refine ⟨res, ?_, ?_, hV₂⟩
        · simp only [filterLoop, hlint, c₁f, if_pos c₂]
          exact hres
        · rw [hnames]
          have hk : keepGo l opts sx si nx ni name = false := by
            simp [keepGo, hlint, c₁f, c₂]
          rw [List.filter_cons, hk]
          simp
      · have c₂f := Bool.eq_false_iff.mpr c₂
        by_cases c₃ : nameFilterRejects opts.NameFilter name = true
        · obtain ⟨res, hres, hnames, hV₂⟩ := hrec
          refine ⟨res, ?_, ?_, hV₂⟩
          · simp only [filterLoop, hlint, c₁f, c₂f, if_pos c₃]
            exact hres
          · rw [hnames]
            have hk : keepGo l opts sx si nx ni name = false := by
              simp [keepGo, hlint, c₃]
            rw [List.filter_cons, hk]
            simp
        · have c₃f := Bool.eq_false_iff.mpr c₃
          by_cases c₄ : inOptMap nx name = true
          · obtain ⟨res, hres, hnames, hV₂⟩ := hrec
            refine ⟨res, ?_, ?_, hV₂⟩
            · simp only [filterLoop, hlint, c₁f, c₂f, c₃f, if_pos c₄]
              exact hres
            · rw [hnames]
              have hk : keepGo l opts sx si nx ni name = false := by
                simp [keepGo, hlint, c₄]
              rw [List.filter_cons, hk]
              simp
          · have c₄f := Bool.eq_false_iff.mpr c₄
            by_cases c₅ : notInOptMap ni name = true
            · obtain ⟨res, hres, hnames, hV₂⟩ := hrec
              refine ⟨res, ?_, ?_, hV₂⟩
              · simp only [filterLoop, hlint, c₁f, c₂f, c₃f, c₄f, if_pos c₅]
                exact hres
              · rw [hnames]
                have hk : keepGo l opts sx si nx ni name = false := by
                  simp [keepGo, hlint, c₅]
                rw [List.filter_cons, hk]
                simp
            · have c₅f := Bool.eq_false_iff.mpr c₅
              have hk : keepGo l opts sx si nx ni name = true := by
                simp [keepGo, hlint, c₁f, c₂f, c₃f, c₄f, c₅f]
              obtain ⟨impl, hpe⟩ := Option.isSome_iff_exists.mp hlptr
              have hnENE : lint.Name ≠ "" := by
                rw [hlname]
                exact hlne
              have hnotmem : name ∉ acc.lintNames := fun hm =>
                (irrefl_of strLt name) (hord name hm name (by simp))
              have hdup : acc.byName lint.Name = none := by
                rw [hlname]
                exact mapLookup_eq_none.mpr (fun hk₂ => hnotmem (hV.2.2.1 _ hk₂))
              obtain ⟨acc₂, hreg, hV₂, hperm, hby₂⟩ :=
                register_ok_spec acc lint impl false hV hpe hnENE hdup
                  (fun h => Bool.noConfusion h)
              have happs : (acc.lintNames ++ [name]).Sorted strLe := by
                refine List.pairwise_append.mpr
                  ⟨sorted_strLe_of_pairwise_strLt hV.1, by simp, ?_⟩
                intro a ha b hb
                simp only [List.mem_singleton] at hb
                rw [hb]
                exact strLe_of_strLt (hord a ha name (by simp))
              have heq : acc₂.lintNames = acc.lintNames ++ [name] := by
                refine List.eq_of_perm_of_sorted ?_
                  (sorted_strLe_of_pairwise_strLt hV₂.1) happs
                refine hperm.trans ?_
                rw [hlname]
                exact (List.perm_append_singleton name acc.lintNames).symm
              have hord₂ : ∀ a ∈ acc₂.lintNames, ∀ b ∈ rest, strLt a b := by
                intro a ha b hb
                rw [heq] at ha
                rcases List.mem_append.mp ha with hm | hm
                · exact hord a hm b (by simp [hb])
                · simp only [List.mem_singleton] at hm
                  subst hm
                  exact List.rel_of_pairwise_cons hpw hb
              obtain ⟨res, hres, hnames, hV₃⟩ :=
                ih acc₂ (fun n hn => hlk n (by simp [hn])) hpw.of_cons hV₂ hord₂
              refine ⟨res, ?_, ?_, hV₃⟩
              · simp only [filterLoop, hlint, c₁f, c₂f, c₃f, c₄f, c₅f,
                  Bool.false_eq_true, if_false, hreg]
                exact hres
              · rw [hnames, heq, List.filter_cons, hk]
                simp

/-! ### Claims about filter resolution -/

/-- C1 (amended): for a consistent source registry and non-empty criteria on
which `Filter` succeeds, a registered rule name appears in the filtered
registry's names exactly when it passes the five keep/drop tests in the
stated precedence, with the include/exclude-by-name membership tests applied
to the whitespace-trimmed name lists (the code trims each listed name before
use); every name of the filtered registry is a registered name. The claim as
stated, with raw (untrimmed) name-list membership, is refuted by
`filter_names_characterization_counterexample`. -/
theorem filter_names_characterization (l : linterImpl) (opts : FilterOptions)
    (filtered : linterImpl) (hV : l.Valid) (hne : opts.Empty = false)
    (hok : l.Filter opts = .ok filtered) :
    (∀ name, name ∈ filtered.Names → name ∈ l.Names) ∧
      (∀ name lint, l.byName name = some lint →
        (name ∈ filtered.Names ↔ keepTrimmed opts lint name = true)) := by
  simp only [linterImpl.Filter, hne, Bool.false_eq_true, if_false] at hok
  rcases hx : l.lintNamesToMap opts.ExcludeNames with e | nx
  · rw [hx] at hok
    simp at hok
  rw [hx] at hok
  rcases hi : l.lintNamesToMap opts.IncludeNames with e | ni
  · rw [hi] at hok
    simp at hok
  rw [hi] at hok
  simp only [] at hok
  by_cases hconf : (opts.NameFilter.isSome = true ∧
      ((nx.getD []).length ≠ 0 ∨ (ni.getD []).length ≠ 0))
  · rw [if_pos hconf] at hok
    simp at hok
  rw [if_neg hconf] at hok
  obtain ⟨res, hres, hnames, hV₃⟩ :=
    filterLoop_ok l opts (sourceListToMap opts.ExcludeSources)
      (sourceListToMap opts.IncludeSources) nx ni l.Names newLinter
      (by
        intro n hn
        obtain ⟨v, hv⟩ := Option.isSome_iff_exists.mp
          (mapLookup_isSome.mpr (hV.2.1 n hn))
        obtain ⟨hvn, hvp, hvne⟩ := hV.2.2.2.2 (n, v) (mapLookup_mem hv)
        exact ⟨v, hv, hvn, hvp, hvne⟩)
      hV.1 newLinter_valid
      (by
        intro a ha
        simp [newLinter] at ha)
  rw [hok] at hres
  injection hres with hres
  subst hres
  have hfn : filtered.Names =
      (l.Names).filter (keepGo l opts (sourceListToMap opts.ExcludeSources)
        (sourceListToMap opts.IncludeSources) nx ni) := by
    show filtered.lintNames = _
    rw [hnames]
    simp [newLinter]
  constructor
  · intro name hmem
    rw [hfn] at hmem
    exact (List.mem_filter.mp hmem).1
  · intro name lint hlint
    have hreg : name ∈ l.Names :=
      hV.2.2.1 name (mapLookup_isSome.mp
        (show (l.byName name).isSome = true by rw [hlint]; rfl))
    rw [hfn, List.mem_filter,
      keepGo_eq_keepTrimmed hx hi hlint]
    simp [hreg]

/-- C1 counterexample: against the registry holding only "foo", the criteria
excluding by name " foo" (leading space) drop "foo" — the code trims the
listed name and excludes "foo" — although "foo" passes all five tests as the
claim words them, since "foo" is not an element of the raw exclude list. -/
theorem filter_names_characterization_counterexample :
    fooRegistry.Valid ∧ exOptsSpaced.Empty = false ∧
      fooRegistry.Filter exOptsSpaced = .ok newLinter ∧
      "foo" ∈ fooRegistry.Names ∧
      fooRegistry.byName "foo" = some fooLint ∧
      keepAsClaimed exOptsSpaced fooLint "foo" = true ∧
      "foo" ∉ newLinter.Names := by
  refine ⟨?_, rfl, rfl, by decide, rfl, by decide, by decide⟩
  refine ⟨?_, ?_, ?_, ?_, ?_⟩ <;> decide

/-- C1 witness: the two-lint registry filtered by include-source tag 0 keeps
"foo" and drops "bar", matching the five-test characterization. -/
theorem filter_names_characterization_witness :
    (∀ name, name ∈ fooRegistry.Names → name ∈ fooBarRegistry.Names) ∧
      (∀ name lint, fooBarRegistry.byName name = some lint →
        (name ∈ fooRegistry.Names ↔
          keepTrimmed incSrcOpts lint name = true)) :=
  filter_names_characterization fooBarRegistry incSrcOpts fooRegistry
    (by refine ⟨?_, ?_, ?_, ?_, ?_⟩ <;> decide) rfl rfl

/-- C2 (amended): when the name pattern is set together with a non-empty
include- or exclude-by-name list, and every listed name (after trimming)
resolves to a registered rule, `Filter` fails with `ConflictingCriteria` —
whatever the source lists contain. The unconditional claim ("regardless of
whether the listed names are registered") is refuted by
`filter_conflicting_criteria_counterexample`: name resolution runs first, so
an unregistered listed name surfaces as `UnknownRuleName` instead. -/
theorem filter_conflicting_criteria (l : linterImpl) (opts : FilterOptions)
    (hnf : opts.NameFilter.isSome = true)
    (hlists : opts.IncludeNames ≠ [] ∨ opts.ExcludeNames ≠ [])
    (hresolve : ∀ n ∈ opts.IncludeNames ++ opts.ExcludeNames,
      (l.byName (trimSpace n)).isSome = true) :
    l.Filter opts = .error .conflictingCriteria := by
  obtain ⟨f, hf⟩ := Option.isSome_iff_exists.mp hnf
  have hne : opts.Empty = false := by
    simp [FilterOptions.Empty, hf]
  simp only [linterImpl.Filter, hne, Bool.false_eq_true, if_false]
  obtain ⟨nx, hx⟩ := lintNamesToMap_total opts.ExcludeNames
    (fun n hn => hresolve n (List.mem_append.mpr (Or.inr hn)))
  obtain ⟨ni, hi⟩ := lintNamesToMap_total opts.IncludeNames
    (fun n hn => hresolve n (List.mem_append.mpr (Or.inl hn)))
  rw [hx, hi]
  simp only []
  rw [if_pos ?hc]
  case hc =>
    refine ⟨hnf, ?_⟩
    rcases hlists with hl | hl
    · refine Or.inr ?_
      obtain ⟨n₀, hn₀⟩ := List.exists_mem_of_ne_nil _ hl
      have hmem : trimSpace n₀ ∈ ni.getD [] :=
        ((lintNamesToMap_ok hi).2.1 _).mpr (List.mem_map_of_mem trimSpace hn₀)
      simpa using List.ne_nil_of_mem hmem
    · refine Or.inl ?_
      obtain ⟨n₀, hn₀⟩ := List.exists_mem_of_ne_nil _ hl
      have hmem : trimSpace n₀ ∈ nx.getD [] :=
        ((lintNamesToMap_ok hx).2.1 _).mpr (List.mem_map_of_mem trimSpace hn₀)
      simpa using List.ne_nil_of_mem hmem

/-- C2 witness: pattern plus the resolvable include list ["foo"] against the
one-lint registry. -/
theorem filter_conflicting_criteria_witness :
    fooRegistry.Filter
        { NameFilter := some (fun _ => true), IncludeNames := ["foo"]
          ExcludeNames := [], IncludeSources := [], ExcludeSources := [] } =
      .error .conflictingCriteria :=
  filter_conflicting_criteria fooRegistry _ rfl (Or.inl (by decide))
    (by decide)

/-- C2 counterexample: the pattern is set and the include list is non-empty,
yet `Filter` fails with `UnknownRuleName` — not `ConflictingCriteria` —
because the listed name "nope" is not registered and name resolution runs
before the mutual-exclusion check. -/
theorem filter_conflicting_criteria_counterexample :
    conflictUnknownOpts.NameFilter.isSome = true ∧
      conflictUnknownOpts.IncludeNames ≠ [] ∧
      fooRegistry.Filter conflictUnknownOpts =
        .error (.unknownRuleName "nope") ∧
      FilterError.unknownRuleName "nope" ≠ .conflictingCriteria :=
  ⟨rfl, by decide, rfl, by decide⟩

/-- C6 (amended): if some name in the exclude- or include-by-name list has a
whitespace-trimmed form that is not a registered rule name, `Filter` fails
with `UnknownRuleName` (carrying some unregistered trimmed name). For a raw
listed name that is unregistered only before trimming the claim fails, see
`filter_unknown_rule_name_counterexample`. -/
theorem filter_unknown_rule_name (l : linterImpl) (opts : FilterOptions)
    (hbad : ∃ n ∈ opts.ExcludeNames ++ opts.IncludeNames,
      l.byName (trimSpace n) = none) :
    ∃ t, l.Filter opts = .error (.unknownRuleName t) ∧ l.byName t = none := by
  obtain ⟨n₀, hmem, hnone⟩ := hbad
  have hne : opts.Empty = false := by
    rcases List.mem_append.mp hmem with hm | hm
    · have : opts.ExcludeNames ≠ [] := List.ne_nil_of_mem hm
      simp [FilterOptions.Empty, List.isEmpty_iff, this]
    · have : opts.IncludeNames ≠ [] := List.ne_nil_of_mem hm
      simp [FilterOptions.Empty, List.isEmpty_iff, this]
  simp only [linterImpl.Filter, hne, Bool.false_eq_true, if_false]
  by_cases hxbad : ∃ n ∈ opts.ExcludeNames, l.byName (trimSpace n) = none
  · obtain ⟨t, ht, htn⟩ := lintNamesToMap_err opts.ExcludeNames hxbad
    rw [ht]
    exact ⟨t, rfl, htn⟩
  · have hres : ∀ n ∈ opts.ExcludeNames, (l.byName (trimSpace n)).isSome = true := by
      intro n hn
      rcases h₂ : l.byName (trimSpace n) with _ | v
      · exact absurd ⟨n, hn, h₂⟩ hxbad
      · rfl
    obtain ⟨nx, hx⟩ := lintNamesToMap_total opts.ExcludeNames hres
    rw [hx]
    have hibad : ∃ n ∈ opts.IncludeNames, l.byName (trimSpace n) = none := by
      rcases List.mem_append.mp hmem with hm | hm
      · exact absurd ⟨n₀, hm, hnone⟩ hxbad
      · exact ⟨n₀, hm, hnone⟩
    obtain ⟨t, ht, htn⟩ := lintNamesToMap_err opts.IncludeNames hibad
    rw [ht]
    exact ⟨t, rfl, htn⟩

/-- C6 witness: the unregistered listed name "nope" makes `Filter` fail with
`UnknownRuleName`. -/
theorem filter_unknown_rule_name_witness :
    ∃ t, fooRegistry.Filter
        { NameFilter := none, IncludeNames := [], ExcludeNames := ["nope"]
          IncludeSources := [], ExcludeSources := [] } =
        .error (.unknownRuleName t) ∧ fooRegistry.byName t = none :=
  filter_unknown_rule_name fooRegistry _ ⟨"nope", by decide, rfl⟩

/-- C6 counterexample: " foo" (leading space) is in the exclude list and is
not a registered rule name, yet `Filter` succeeds — the code looks the name
up only after trimming it to the registered "foo". -/
theorem filter_unknown_rule_name_counterexample :
    fooRegistry.byName " foo" = none ∧
      " foo" ∈ exOptsSpaced.ExcludeNames ∧
      fooRegistry.Filter exOptsSpaced = .ok newLinter :=
  ⟨rfl, by decide, rfl⟩

/-! ### Claims about the result model -/

/-- C7: for a result set whose stored results are all non-nil, `Above t`
returns exactly the entries whose status is strictly greater than `t` in the
severity order, and re-applying `Above t` to a result set holding that output
returns the same mapping. -/
theorem above_exact_and_idempotent (rs : ResultSet) (t : LintStatus)
    (h : ∀ p ∈ rs.Results.getD [], p.2.isSome) :
    ∃ m, rs.Above t = some m ∧
      (∀ n r, (n, some r) ∈ m ↔
        ((n, some r) ∈ rs.Results.getD [] ∧ t < r.Status)) ∧
      (∀ p ∈ m, ∃ r, p.2 = some r ∧ t < r.Status) ∧
      ResultSet.Above { rs with Results := some m } t = some m := by
  have hsome : (aboveGo t (rs.Results.getD [])).isSome := aboveGo_isSome h
  rcases he : aboveGo t (rs.Results.getD []) with _ | m
  · rw [he] at hsome; simp at hsome
  · refine ⟨m, he, fun n r => aboveGo_mem he n r, aboveGo_entries he, ?_⟩
    show aboveGo t ((some m).getD []) = some m
    rw [Option.getD_some]
    exact aboveGo_fixed (aboveGo_entries he)

/-- C7 witness: the §8 example — A at Error, B at Pass, C at Warn — with
threshold Pass. -/
theorem above_exact_and_idempotent_witness :
    ∃ m, exampleRS.Above .Pass = some m ∧
      (∀ n r, (n, some r) ∈ m ↔
        ((n, some r) ∈ exampleRS.Results.getD [] ∧ LintStatus.Pass < r.Status)) ∧
      (∀ p ∈ m, ∃ r, p.2 = some r ∧ LintStatus.Pass < r.Status) ∧
      ResultSet.Above { exampleRS with Results := some m } .Pass = some m :=
  above_exact_and_idempotent exampleRS .Pass (by decide)

/-- C10: `AddResult` stores a nil result in the map (only the flag update is
nil-guarded); `Above` is panic-free when every stored result is non-nil,
panics (returns `none`) whenever some stored result is nil, and in
particular panics on the reachable result set built by calling `AddResult`
with a nil result on a fresh result set. -/
theorem addResult_nil_stored_above_panics :
    (∀ (rs : ResultSet) (name : String),
        (name, (none : Option LintResult)) ∈
          ((rs.AddResult name none).Results.getD [])) ∧
    (∀ (rs : ResultSet) (t : LintStatus),
        (∀ p ∈ rs.Results.getD [], p.2.isSome) → (rs.Above t).isSome) ∧
    (∀ (rs : ResultSet) (t : LintStatus) (p : String × Option LintResult),
        p ∈ rs.Results.getD [] → p.2 = none → rs.Above t = none) ∧
    (∀ (ts : Int) (name : String) (t : LintStatus),
        ((newResultSet ts).AddResult name none).Above t = none) := by
  refine ⟨?_, ?_, ?_, ?_⟩
  · intro rs name
    rw [addResult_results]
    simpa using mem_mapInsert_self (rs.Results.getD []) name none
  · intro rs t h
    exact aboveGo_isSome h
  · intro rs t p hp hn
    exact aboveGo_eq_none hp hn
  · intro ts name t
    refine aboveGo_eq_none (p := (name, none)) ?_ rfl
    rw [addResult_results]
    simpa using mem_mapInsert_self _ name none

/-- C10 witness: instantiations of the panic-freeness (fresh result set) and
of the stored-nil parts at concrete inputs. -/
theorem addResult_nil_stored_above_panics_witness :
    (("x", (none : Option LintResult)) ∈
        (((newResultSet 0).AddResult "x" none).Results.getD [])) ∧
    (((newResultSet 0).Above .Pass).isSome) ∧
    (((newResultSet 0).AddResult "x" none).Above .Reserved = none) :=
  ⟨addResult_nil_stored_above_panics.1 (newResultSet 0) "x",
    addResult_nil_stored_above_panics.2.1 (newResultSet 0) .Pass (by decide),
    addResult_nil_stored_above_panics.2.2.2 0 "x" .Reserved⟩

/-- C3 (amended): starting from a result set whose flags are consistent, for
every insertion sequence whose rule names are pairwise distinct and do not
collide with existing entries — i.e. no insertion replaces an existing
entry — every intermediate result set (after each insertion) satisfies the
presence-flag invariant. The claim as stated, which also admits replacing
insertions, is refuted by `addResult_flag_invariant_counterexample`. -/
theorem addResult_flag_invariant (rs : ResultSet)
    (steps : List (String × Option LintResult)) (h₀ : flagsConsistent rs)
    (hfresh : ∀ k ∈ steps.map Prod.fst, k ∉ (rs.Results.getD []).map Prod.fst)
    (hnodup : (steps.map Prod.fst).Nodup) :
    ∀ pre suf, steps = pre ++ suf → flagsConsistent (addResults rs pre) := by
  intro pre suf hps
  subst hps
  refine addResults_flags rs pre h₀ ?_ ?_
  · intro k hk
    exact hfresh k (by simp [hk])
  · rw [List.map_append] at hnodup
    exact hnodup.of_append_left

/-- C3 witness: inserting a Notice and then an Error entry, checked after the
second insertion (the first is covered by the prefix quantifier). -/
theorem addResult_flag_invariant_witness :
    flagsConsistent (addResults (newResultSet 0)
      [("n", some ⟨.Notice, ""⟩), ("e", some ⟨.Error, ""⟩)]) :=
  addResult_flag_invariant (newResultSet 0)
    [("n", some ⟨.Notice, ""⟩), ("e", some ⟨.Error, ""⟩)]
    (by decide) (by decide) (by decide)
    [("n", some ⟨.Notice, ""⟩), ("e", some ⟨.Error, ""⟩)] [] rfl

/-- C3 counterexample: replacing the only Error entry by a Pass entry leaves
`ErrorsPresent` raised while no entry has status Error, so after that
(replacing) insertion the flags are not the OR over current entries — the
flags are sticky, never recomputed downward. -/
theorem addResult_flag_invariant_counterexample :
    ¬ flagsConsistent (addResults (newResultSet 0)
      [("a", some ⟨.Error, ""⟩), ("a", some ⟨.Pass, ""⟩)]) := by
  decide

/-- C8: empty criteria make `Filter` succeed with the very same registry
instance (not a copy), hence with identical `names()`. -/
theorem filter_empty_same_instance (l : linterImpl) (opts : FilterOptions)
    (h : opts.Empty = true) : l.Filter opts = .ok l := by
  simp [linterImpl.Filter, h]

/-- C8 witness: the empty criteria record against the one-lint registry. -/
theorem filter_empty_same_instance_witness :
    emptyOpts.Empty = true ∧ fooRegistry.Filter emptyOpts = .ok fooRegistry :=
  ⟨rfl, filter_empty_same_instance fooRegistry emptyOpts rfl⟩

/-- C9: `LintByName` on an unregistered name returns a result set with an
empty map and all four presence flags false, raising no error (the function
is total); on a registered name it returns exactly one entry, that lint's
verdict under that name. -/
theorem lintByName_behavior (l : linterImpl) (name : String)
    (cert : Certificate) (ts te : Int) :
    (l.byName name = none →
      (l.LintByName name cert ts te).Results = some [] ∧
      (l.LintByName name cert ts te).NoticesPresent = false ∧
      (l.LintByName name cert ts te).WarningsPresent = false ∧
      (l.LintByName name cert ts te).ErrorsPresent = false ∧
      (l.LintByName name cert ts te).FatalsPresent = false) ∧
    (∀ lint, l.byName name = some lint →
      (l.LintByName name cert ts te).Results =
        some [(name, lint.Execute cert)]) := by
  constructor
  · intro h
    refine ⟨?_, ?_, ?_, ?_, ?_⟩ <;> simp [linterImpl.LintByName, h, newResultSet]
  · intro lint h
    simp only [linterImpl.LintByName, h]
    rw [addResult_results]
    simp [newResultSet, mapInsert]

/-- C9 witness: the unregistered name "x" on the empty registry; the
registered name "foo" on the one-lint registry. -/
theorem lintByName_behavior_witness :
    ((newLinter.LintByName "x" ⟨0⟩ 0 0).Results = some []) ∧
    ((newLinter.LintByName "x" ⟨0⟩ 0 0).NoticesPresent = false) ∧
    ((fooRegistry.LintByName "foo" ⟨0⟩ 0 0).Results =
      some [("foo", fooLint.Execute ⟨0⟩)]) :=
  ⟨((lintByName_behavior newLinter "x" ⟨0⟩ 0 0).1 rfl).1,
    ((lintByName_behavior newLinter "x" ⟨0⟩ 0 0).1 rfl).2.1,
    (lintByName_behavior fooRegistry "foo" ⟨0⟩ 0 0).2 fooLint rfl⟩

end Zlint
